import Mathlib

/-!
Verification of the agent-memory retrieval engine.

The definitions below are a shallow embedding of the repository's Python
code (`agent_memory/sdk.py`, `agent_memory/store.py`,
`agent_memory/embeddings.py`).  Numeric scores are modelled over a
`LinearOrderedField K`; the math-library collaborators `math.log`,
`math.exp` and `math.sqrt` are passed in as function parameters `log`,
`exp`, `sqrt` (the program instantiates `K := ℝ` with `Real.log`,
`Real.exp`, `Real.sqrt`; instantiating `K := ℚ` keeps everything
computable for concrete evaluation).  The `datetime` collaborator is
modelled by a parameter `parseTs : String → Option K` returning epoch
seconds for parseable aware timestamps and `none` otherwise, together
with `now : K` in epoch seconds.
-/

namespace AgentMemory

/-! ### Tokenizer: `re.findall(r"\w+", text.lower())` -/

/-- Word character of the `\w` class (ASCII view): alphanumeric or underscore. -/
def isWordChar (c : Char) : Bool :=
  c.isAlphanum || c = '_'

/-- Lowercasing, `str.lower()`. -/
def pyLower (s : String) : String :=
  String.mk (s.data.map Char.toLower)

/-- Accumulate maximal runs of word characters.  The second argument is the
current run, in reverse. -/
def tokenizeAux : List Char → List Char → List String
  | [], acc => if acc.isEmpty then [] else [String.mk acc.reverse]
  | c :: cs, acc =>
    if isWordChar c then
      tokenizeAux cs (c :: acc)
    else if acc.isEmpty then
      tokenizeAux cs []
    else
      String.mk acc.reverse :: tokenizeAux cs []

/-- `Memory._tokenize`: maximal runs of word characters, case-folded. -/
def tokenize (s : String) : List String :=
  tokenizeAux (pyLower s).data []

/-! ### Memory records -/

/-- A memory record as stored in `memories.jsonl`. -/
structure Entry where
  id : String
  timestamp : String
  text : String
  tags : List String
  metadata : List (String × String)
  importance : Int
deriving DecidableEq

/-- The document string a candidate is scored on:
`e["text"] + " " + " ".join(e.get("tags", []))`. -/
def docText (e : Entry) : String :=
  e.text ++ " " ++ String.intercalate " " e.tags

/-- Token list of a candidate's document string. -/
def docTokens (e : Entry) : List String :=
  tokenize (docText e)

/-! ### Store operations (`Memory.add/get/list/delete/tag`) -/

/-- Python tail slice `entries[-limit:]` for a natural `limit`:
`-0` is `0`, so `limit = 0` yields the whole list. -/
def pyTail {α : Type} (l : List α) (limit : Nat) : List α :=
  if limit = 0 then l else l.drop (l.length - limit)

/-- The last `n` elements in order ("most recent `n`", spec §4.1
`list_recent`). -/
def lastN {α : Type} (l : List α) (n : Nat) : List α :=
  l.drop (l.length - n)

/-- `Memory.list`: `self._load_all()[-limit:]`. -/
def listRecent (entries : List Entry) (limit : Nat) : List Entry :=
  pyTail entries limit

/-- `importance = max(1, min(5, int(importance)))` in `Memory.add`. -/
def clampImportance (i : Int) : Int :=
  max 1 (min 5 i)

/-- The entry built by `Memory.add` (id and timestamp are produced by the
uuid/datetime collaborators and passed in here). -/
def mkEntry (id ts text : String) (tags : List String)
    (metadata : List (String × String)) (importance : Int) : Entry :=
  { id := id, timestamp := ts, text := text, tags := tags,
    metadata := metadata, importance := clampImportance importance }

/-- `Memory.add`: append the new entry to the log; return the new log and
the created entry. -/
def addEntry (entries : List Entry) (id ts text : String) (tags : List String)
    (metadata : List (String × String)) (importance : Int) :
    List Entry × Entry :=
  (entries ++ [mkEntry id ts text tags metadata importance],
   mkEntry id ts text tags metadata importance)

/-- `Memory.get`: first entry whose id matches, else `None`. -/
def getEntry (entries : List Entry) (id : String) : Option Entry :=
  entries.find? (fun e => e.id == id)

/-- `Memory.delete`: filter out all entries with the id; if nothing was
removed return `False` and leave the log alone, else save and return
`True`. -/
def deleteEntry (entries : List Entry) (id : String) : Bool × List Entry :=
  let new := entries.filter (fun e => !(e.id == id))
  if new.length = entries.length then (false, entries) else (true, new)

/-- `sorted(set(l))`: duplicates removed, ascending order. -/
def pySortedSet (l : List String) : List String :=
  (l.dedup).insertionSort (fun a b => a ≤ b)

/-- Tag update applied to the found record in `Memory.tag`:
`tags = set(e.tags); tags.update(add); tags -= set(remove);
e["tags"] = sorted(tags)`. -/
def tagApply (e : Entry) (add remove : List String) : Entry :=
  { e with tags := pySortedSet (((e.tags ++ add).filter
      (fun t => !(remove.contains t)))) }

/-- `Memory.tag`: update the first entry with the id in place, rewrite the
log; `None` and an unchanged log when the id is absent. -/
def tagEntry : List Entry → String → List String → List String →
    Option Entry × List Entry
  | [], _, _, _ => (none, [])
  | e :: es, id, add, remove =>
    if e.id == id then
      (some (tagApply e add remove), tagApply e add remove :: es)
    else
      let r := tagEntry es id add remove
      (r.1, e :: r.2)

/-! ### Vector index (`embeddings.py`) -/

/-- `VectorStore.embed_batch`, with the single provider round trip
modelled by its outcome `result` (`none` = any provider failure).
`V` is the vector payload type. -/
def embed_batch {V : Type} (items : List (String × String))
    (result : Option (List V)) (store : List (String × V)) :
    Nat × List (String × V) :=
  if items.isEmpty then (0, store)
  else
    match result with
    | none => (0, store)
    | some vecs =>
      (items.length, store ++ (items.zip vecs).map (fun p => (p.1.1, p.2)))

/-! ### Cosine similarity -/

variable {K : Type} [LinearOrderedField K]

/-- `cosine_similarity` with the square-root collaborator abstracted. -/
def cosineG (sqrt : K → K) (a b : List K) : K :=
  let dot := (List.zipWith (fun x y => x * y) a b).sum
  let na := sqrt ((a.map (fun x => x * x)).sum)
  let nb := sqrt ((b.map (fun x => x * x)).sum)
  if na = 0 ∨ nb = 0 then 0 else dot / (na * nb)

/-- `embeddings.cosine_similarity` over the reals. -/
noncomputable def cosine_similarity (a b : List ℝ) : ℝ :=
  cosineG Real.sqrt a b

/-- Euclidean norm `math.sqrt(sum(x * x for x in a))`. -/
noncomputable def normL2 (v : List ℝ) : ℝ :=
  Real.sqrt ((v.map (fun x => x * x)).sum)

/-! ### Keyword scorer (`Memory._keyword_search`)

The Python dictionaries `df` and `tf` are modelled extensionally:
`qt in df` is `docs.any (·.contains qt)`, `df[qt]` is
`docs.countP (·.contains qt)`, `qt in tf` is `tokens.contains qt` and
`tf[qt]` is `tokens.count qt`.  The iteration over the set
`query_tokens` is the fold over `(tokenize query).dedup` (addition in a
field is commutative, so the set's iteration order is irrelevant). -/

/-- The scored list built by the loop in `Memory._keyword_search`:
candidates with positive TF-IDF paired with their final score, in
candidate order (before sorting). -/
def keywordScored (log exp : K → K) (parseTs : String → Option K)
    (now lam : K) (query : String) (entries : List Entry) :
    List (K × Entry) :=
  let queryTokens := (tokenize query).dedup
  let docs := entries.map docTokens
  entries.filterMap (fun e =>
    let tokens := docTokens e
    let tfidf := queryTokens.foldl (fun acc qt =>
      if tokens.contains qt && docs.any (fun d => d.contains qt) then
        acc + (tokens.count qt : K) *
          log (((docs.length : K) + 1) /
            ((docs.countP (fun d => d.contains qt) : K) + 0.5))
      else acc) 0
    if 0 < tfidf then
      some (tfidf *
        (if 0 < lam then
          exp (-lam * (match parseTs e.timestamp with
            | some t => (now - t) / 86400
            | none => 0))
        else 1) * ((e.importance : K) / 3), e)
    else none)

/-- `scored.sort(key=lambda x: -x[0])`: stable descending sort of the
scored list.  Python's ascending sort on key `-score` puts `a` before `b`
exactly when `b.score ≤ a.score`. -/
def keywordRanked (log exp : K → K) (parseTs : String → Option K)
    (now lam : K) (query : String) (entries : List Entry) :
    List (K × Entry) :=
  (keywordScored log exp parseTs now lam query entries).mergeSort
    (fun a b => decide (b.1 ≤ a.1))

/-- `Memory._keyword_search`: empty-tokenizing query returns
`entries[-limit:]`; otherwise score, sort, truncate, project. -/
def keywordSearch (log exp : K → K) (parseTs : String → Option K)
    (now lam : K) (query : String) (entries : List Entry) (limit : Nat) :
    List Entry :=
  if ((tokenize query).dedup).isEmpty then pyTail entries limit
  else ((keywordRanked log exp parseTs now lam query entries).take limit).map
    Prod.snd

/-! ### Spec-side restatement of the scoring formula (§4.3 of the spec) -/

/-- Spec: `days_old` is the elapsed time between `now` and the
candidate's timestamp in fractional days; unparseable timestamps give 0. -/
def specDaysOld (parseTs : String → Option K) (now : K) (ts : String) : K :=
  match parseTs ts with
  | some t => (now - t) / 86400
  | none => 0

/-- Spec: time factor `exp(-decay_lambda * days_old)`, exactly 1 when the
decay is disabled. -/
def specTimeFactor (exp : K → K) (lam d : K) : K :=
  if 0 < lam then exp (-lam * d) else 1

/-- Spec: TF-IDF partial score, the sum over query tokens present in both
`tf` and `df` of `tf[t] * ln((N + 1) / (df[t] + 0.5))`. -/
def specTfidf (log : K → K) (query : String) (entries : List Entry)
    (e : Entry) : K :=
  let docs := entries.map docTokens
  let tokens := docTokens e
  ((((tokenize query).dedup).filter (fun qt =>
      tokens.contains qt && docs.any (fun d => d.contains qt))).map
    (fun qt => (tokens.count qt : K) *
      log (((docs.length : K) + 1) /
        ((docs.countP (fun d => d.contains qt) : K) + 0.5)))).sum

/-- Spec: final score = TF-IDF × time factor × importance / 3. -/
def specFinalScore (log exp : K → K) (parseTs : String → Option K)
    (now lam : K) (query : String) (entries : List Entry) (e : Entry) : K :=
  specTfidf log query entries e *
    specTimeFactor exp lam (specDaysOld parseTs now e.timestamp) *
    ((e.importance : K) / 3)

/-! ### Hybrid scorer (`Memory._hybrid_search`)

The provider call for the query embedding is modelled by its outcome
`qvr : Option (List (List K))` (`get_embeddings([query], ...)`), and the
vector index `vectors.jsonl` by `vectors : String → Option (List K)`.
The `keyword_scores` dictionary is modelled by rank lookup in the
keyword result list (`id`s are unique across a store, spec §3). -/

/-- The `combined` list of `Memory._hybrid_search`:
`0.4 * keyword_score + 0.6 * vector_score` per candidate, in candidate
order.  `if vec:` skips missing and empty vectors; `if query_vec_result:`
requires a non-`None`, nonempty embedding response. -/
def hybridCombined (log exp sqrt : K → K) (parseTs : String → Option K)
    (now lam : K) (qvr : Option (List (List K)))
    (vectors : String → Option (List K)) (query : String)
    (entries : List Entry) : List (K × Entry) :=
  let keywordResults :=
    keywordSearch log exp parseTs now lam query entries entries.length
  entries.map (fun e =>
    (0.4 * (match keywordResults.findIdx? (fun r => r.id == e.id) with
        | some rank => 1 - (rank : K) / (keywordResults.length : K)
        | none => 0)
     + 0.6 * (match qvr with
        | some (qv :: _) =>
          (match vectors e.id with
            | some v => if v.isEmpty then 0 else cosineG sqrt qv v
            | none => 0)
        | _ => 0), e))

/-- `Memory._hybrid_search`: sort `combined` descending, truncate to
`limit`, keep strictly positive scores, project the entries. -/
def hybridSearch (log exp sqrt : K → K) (parseTs : String → Option K)
    (now lam : K) (qvr : Option (List (List K)))
    (vectors : String → Option (List K)) (query : String)
    (entries : List Entry) (limit : Nat) : List Entry :=
  ((((hybridCombined log exp sqrt parseTs now lam qvr vectors query
      entries).mergeSort (fun a b => decide (b.1 ≤ a.1))).take limit).filter
    (fun p => decide (0 < p.1))).map Prod.snd

/-- Spec §4.5: keyword contribution, the normalized rank score
`1 - rank / total_returned` over the keyword scorer's result on the full
candidate set; candidates the keyword scorer excluded receive 0. -/
def specKwContrib (log exp : K → K) (parseTs : String → Option K)
    (now lam : K) (query : String) (entries : List Entry) (e : Entry) : K :=
  let res := keywordSearch log exp parseTs now lam query entries entries.length
  match res.findIdx? (fun r => r.id == e.id) with
  | some rank => 1 - (rank : K) / (res.length : K)
  | none => 0

/-- Spec §4.5: vector contribution, the raw cosine similarity against the
query vector, 0 when the candidate has no vector entry. -/
def specVecContrib (sqrt : K → K) (qv : List K)
    (vectors : String → Option (List K)) (e : Entry) : K :=
  match vectors e.id with
  | some v => cosineG sqrt qv v
  | none => 0

/-- Spec §4.5: combined score `0.4 * keyword + 0.6 * vector`. -/
def specCombined (log exp sqrt : K → K) (parseTs : String → Option K)
    (now lam : K) (qv : List K) (vectors : String → Option (List K))
    (query : String) (entries : List Entry) (e : Entry) : K :=
  0.4 * specKwContrib log exp parseTs now lam query entries e
    + 0.6 * specVecContrib sqrt qv vectors e

/-! ### Sample records for concrete instantiations -/

/-- A concrete record used for concrete instantiations. -/
def sample1 : Entry :=
  { id := "i1", timestamp := "t1", text := "hello world",
    tags := [], metadata := [], importance := 3 }

/-- A second concrete record with a distinct id. -/
def sample2 : Entry :=
  { id := "i2", timestamp := "t2", text := "rust guide",
    tags := ["x"], metadata := [], importance := 3 }

/-! ### Helper lemmas -/

/-- A fold that adds `t x` for the elements passing `p` is the sum over
the filtered list. -/
theorem foldl_ite_add {α : Type} (p : α → Bool) (t : α → K) (l : List α) :
    ∀ acc : K,
      l.foldl (fun acc x => if p x then acc + t x else acc) acc
        = acc + ((l.filter p).map t).sum := by
  induction l with
  | nil => intro acc; simp
  | cons x l ih =>
    intro acc
    cases h : p x with
    | false => simp [List.foldl_cons, h, List.filter_cons, ih]
    | true => simp [List.foldl_cons, h, List.filter_cons, ih, add_assoc]

/-- A guarded `filterMap` is a `filter` followed by a `map`. -/
theorem filterMap_ite {α β : Type} (p : α → Prop) [DecidablePred p]
    (f : α → β) (l : List α) :
    (l.filterMap fun x => if p x then some (f x) else none)
      = (l.filter fun x => decide (p x)).map f := by
  induction l with
  | nil => rfl
  | cons a l ih =>
    by_cases h : p a <;> simp [List.filterMap_cons, List.filter_cons, h, ih]

/-- The loop of `Memory._keyword_search` retains exactly the candidates
with positive TF-IDF, each paired with the spec's final score. -/
theorem keywordScored_eq (log exp : K → K) (parseTs : String → Option K)
    (now lam : K) (q : String) (es : List Entry) :
    keywordScored log exp parseTs now lam q es
      = (es.filter fun e => decide (0 < specTfidf log q es e)).map
          (fun e => (specFinalScore log exp parseTs now lam q es e, e)) := by
  rw [← filterMap_ite (fun e => 0 < specTfidf log q es e)
        (fun e => (specFinalScore log exp parseTs now lam q es e, e)) es]
  unfold keywordScored
  dsimp only
  congr 1
  funext e
  rw [foldl_ite_add]
  rw [zero_add]
  rfl

/-- Shape of the members of the scored list. -/
theorem keywordScored_mem (log exp : K → K) (parseTs : String → Option K)
    (now lam : K) (q : String) (es : List Entry) {p : K × Entry}
    (hp : p ∈ keywordScored log exp parseTs now lam q es) :
    p.1 = specFinalScore log exp parseTs now lam q es p.2
      ∧ 0 < specTfidf log q es p.2 ∧ p.2 ∈ es := by
  rw [keywordScored_eq] at hp
  obtain ⟨e, he, rfl⟩ := List.mem_map.mp hp
  have h := List.mem_filter.mp he
  exact ⟨rfl, of_decide_eq_true h.2, h.1⟩

/-- Transitivity of the descending Boolean comparison used by the sorts. -/
theorem desc_trans {β : Type} (a b c : K × β)
    (h1 : decide (b.1 ≤ a.1) = true) (h2 : decide (c.1 ≤ b.1) = true) :
    decide (c.1 ≤ a.1) = true := by
  simp only [decide_eq_true_eq] at h1 h2 ⊢
  exact le_trans h2 h1

/-- Totality of the descending Boolean comparison used by the sorts. -/
theorem desc_total {β : Type} (a b : K × β) :
    (decide (b.1 ≤ a.1) || decide (a.1 ≤ b.1)) = true := by
  rcases le_total b.1 a.1 with h | h <;> simp [h]

/-! ### Claims -/

/-- Claim C1: for every retained candidate (positive TF-IDF partial
score), keyword search computes the final score as
`tfidf_score * time_factor * (importance / 3.0)`, where the time factor
is `exp(-decay_lambda * days_old)` for positive `decay_lambda` and
exactly 1 when `decay_lambda` is 0, and `days_old` is the elapsed time
between `now` and the candidate's timestamp in fractional days,
defaulting to 0 when the timestamp is unparseable. -/
theorem keyword_final_score (log exp : K → K) (parseTs : String → Option K)
    (now lam : K) (q : String) (es : List Entry) :
    keywordScored log exp parseTs now lam q es
      = (es.filter fun e => decide (0 < specTfidf log q es e)).map
          (fun e => (specFinalScore log exp parseTs now lam q es e, e))
    ∧ (∀ e : Entry, specFinalScore log exp parseTs now lam q es e
        = specTfidf log q es e *
            specTimeFactor exp lam (specDaysOld parseTs now e.timestamp) *
            ((e.importance : K) / 3))
    ∧ (∀ ts, parseTs ts = none → specDaysOld parseTs now ts = 0)
    ∧ (∀ ts t, parseTs ts = some t →
        specDaysOld parseTs now ts = (now - t) / 86400)
    ∧ (∀ d : K, specTimeFactor exp 0 d = 1)
    ∧ (∀ d : K, 0 < lam → specTimeFactor exp lam d = exp (-lam * d)) := by
  refine ⟨keywordScored_eq log exp parseTs now lam q es, fun e => rfl,
    fun ts h => ?_, fun ts t h => ?_, fun d => ?_, fun d hl => ?_⟩
  · simp [specDaysOld, h]
  · simp [specDaysOld, h]
  · simp [specTimeFactor]
  · simp [specTimeFactor, hl]

/-- Concrete instance of C1 over `ℚ`, discharging each hypothesis. -/
theorem keyword_final_score_app :
    keywordScored (K := ℚ) (fun x => x) (fun x => x) (fun _ => none) 0 0
        "a" []
      = (([] : List Entry).filter fun e =>
            decide (0 < specTfidf (K := ℚ) (fun x => x) "a" [] e)).map
          (fun e => (specFinalScore (K := ℚ) (fun x => x) (fun x => x)
            (fun _ => none) 0 0 "a" [] e, e))
    ∧ specDaysOld (K := ℚ) (fun _ => none) 0 "bad" = 0
    ∧ specDaysOld (K := ℚ) (fun _ => some 3) 0 "ts" = (0 - 3) / 86400
    ∧ specTimeFactor (K := ℚ) (fun x => x) 0 5 = 1
    ∧ specTimeFactor (K := ℚ) (fun x => x) 1 2 = (fun x : ℚ => x) (-1 * 2) :=
  ⟨(keyword_final_score (K := ℚ) (fun x => x) (fun x => x) (fun _ => none)
      0 0 "a" []).1,
   (keyword_final_score (K := ℚ) (fun x => x) (fun x => x) (fun _ => none)
      0 0 "a" []).2.2.1 "bad" rfl,
   (keyword_final_score (K := ℚ) (fun x => x) (fun x => x) (fun _ => some 3)
      0 0 "a" []).2.2.2.1 "ts" 3 rfl,
   (keyword_final_score (K := ℚ) (fun x => x) (fun x => x) (fun _ => none)
      0 0 "a" []).2.2.2.2.1 5,
   (keyword_final_score (K := ℚ) (fun x => x) (fun x => x) (fun _ => none)
      0 1 "a" []).2.2.2.2.2 2 (by decide)⟩

/-- Claim C2: keyword search (on a query with at least one token, the
regime of the scoring loop) excludes entirely every candidate whose
TF-IDF partial score is non-positive — a query whose tokens appear in no
candidate yields an empty result — and sorts the retained candidates
descending by final score, ties retaining their relative input order
(stable sort). -/
theorem keyword_excludes_nonpositive (log exp : K → K)
    (parseTs : String → Option K) (now lam : K) (q : String)
    (es : List Entry) (limit : Nat) (hq : tokenize q ≠ []) :
    (keywordSearch log exp parseTs now lam q es limit).Forall
        (fun e => 0 < specTfidf log q es e)
    ∧ ((∀ t ∈ tokenize q, ∀ e ∈ es, t ∉ docTokens e) →
        keywordSearch log exp parseTs now lam q es limit = [])
    ∧ (keywordSearch log exp parseTs now lam q es limit).Pairwise
        (fun e1 e2 => specFinalScore log exp parseTs now lam q es e2
          ≤ specFinalScore log exp parseTs now lam q es e1)
    ∧ (∀ a b : K × Entry, a.1 = b.1 →
        List.Sublist [a, b] (keywordScored log exp parseTs now lam q es) →
        List.Sublist [a, b]
          (keywordRanked log exp parseTs now lam q es)) := by
  have hKS : keywordSearch log exp parseTs now lam q es limit
      = ((keywordRanked log exp parseTs now lam q es).take limit).map
          Prod.snd := by
    unfold keywordSearch
    rw [if_neg]
    simp [List.isEmpty_iff, List.dedup_eq_nil, hq]
  refine ⟨?_, fun hno => ?_, ?_, fun a b hab hsub => ?_⟩
  · rw [hKS, List.forall_iff_forall_mem]
    intro e he
    obtain ⟨p, hp, rfl⟩ := List.mem_map.mp he
    have hp' : p ∈ keywordScored log exp parseTs now lam q es := by
      have := List.mem_of_mem_take hp
      unfold keywordRanked at this
      exact List.mem_mergeSort.mp this
    exact (keywordScored_mem log exp parseTs now lam q es hp').2.1
  · have hsc : keywordScored log exp parseTs now lam q es = [] := by
      rw [keywordScored_eq]
      have hfe : es.filter (fun e => decide (0 < specTfidf log q es e))
          = [] := by
        rw [List.filter_eq_nil_iff]
        intro e _
        simp only [decide_eq_true_eq, not_lt]
        have hf : (((tokenize q).dedup).filter (fun qt =>
            (docTokens e).contains qt &&
              (es.map docTokens).any (fun d => d.contains qt))) = [] := by
          rw [List.filter_eq_nil_iff]
          intro qt hqt
          have hq' := List.mem_dedup.mp hqt
          intro hcontra
          simp only [Bool.and_eq_true] at hcontra
          rcases List.any_eq_true.mp hcontra.2 with ⟨d, hd, hcont⟩
          rcases List.mem_map.mp hd with ⟨e', he', rfl⟩
          have hmem : qt ∈ docTokens e' := by
            rcases List.contains_iff_exists_mem_beq.mp hcont with ⟨b, hb, hbe⟩
            rwa [beq_iff_eq.mp hbe]
          exact hno qt hq' e' he' hmem
        have : specTfidf log q es e = 0 := by
          unfold specTfidf
          dsimp only
          rw [hf]
          simp
        rw [this]
      rw [hfe]
      rfl
    rw [hKS]
    unfold keywordRanked
    rw [hsc]
    simp
  · rw [hKS]
    have hsorted : (keywordRanked log exp parseTs now lam q es).Pairwise
        (fun a b : K × Entry => decide (b.1 ≤ a.1)) :=
      List.sorted_mergeSort (fun a b c h1 h2 => desc_trans a b c h1 h2)
        (fun a b => desc_total a b)
        (keywordScored log exp parseTs now lam q es)
    have htake := hsorted.sublist (List.take_sublist limit _)
    rw [List.pairwise_map]
    refine htake.imp_of_mem ?_
    intro p p' hp hp' h
    have hm : p ∈ keywordScored log exp parseTs now lam q es := by
      have := List.mem_of_mem_take hp
      unfold keywordRanked at this
      exact List.mem_mergeSort.mp this
    have hm' : p' ∈ keywordScored log exp parseTs now lam q es := by
      have := List.mem_of_mem_take hp'
      unfold keywordRanked at this
      exact List.mem_mergeSort.mp this
    have e1 := (keywordScored_mem log exp parseTs now lam q es hm).1
    have e2 := (keywordScored_mem log exp parseTs now lam q es hm').1
    rw [← e1, ← e2]
    exact of_decide_eq_true h
  · unfold keywordRanked
    refine List.pair_sublist_mergeSort
      (fun x y z h1 h2 => desc_trans x y z h1 h2)
      (fun x y => desc_total x y) ?_ hsub
    simp [hab]

/-- Concrete instance of C2 over `ℚ`: a query whose single token appears
in no candidate yields an empty result. -/
theorem keyword_excludes_nonpositive_app :
    keywordSearch (K := ℚ) (fun x => x) (fun x => x) (fun _ => none) 0 0
      "zzz" [{ id := "i1", timestamp := "t", text := "hello world",
               tags := [], metadata := [], importance := 3 }] 5 = [] :=
  (keyword_excludes_nonpositive (K := ℚ) (fun x => x) (fun x => x)
    (fun _ => none) 0 0 "zzz"
    [{ id := "i1", timestamp := "t", text := "hello world",
       tags := [], metadata := [], importance := 3 }] 5
    (by decide)).2.1 (by decide)

/-- Cosine against an empty vector is 0 for any square root function:
the dot product is already 0. -/
theorem cosineG_nil_right (sqrt : K → K) (qv : List K) :
    cosineG sqrt qv [] = 0 := by
  unfold cosineG
  dsimp only
  rw [List.zipWith_nil_right]
  simp only [List.sum_nil]
  split
  · rfl
  · exact zero_div _

/-- The ranked keyword list is never longer than the candidate list. -/
theorem keywordRanked_length_le (log exp : K → K)
    (parseTs : String → Option K) (now lam : K) (q : String)
    (es : List Entry) :
    (keywordRanked log exp parseTs now lam q es).length ≤ es.length := by
  unfold keywordRanked
  rw [List.length_mergeSort, keywordScored_eq, List.length_map]
  exact List.length_filter_le _ _

/-- The `combined` list of the hybrid scorer carries the spec's combined
score for every candidate, in candidate order. -/
theorem hybridCombined_eq (log exp sqrt : K → K)
    (parseTs : String → Option K) (now lam : K) (qv : List K)
    (rest : List (List K)) (vectors : String → Option (List K))
    (q : String) (es : List Entry) :
    hybridCombined log exp sqrt parseTs now lam (some (qv :: rest))
        vectors q es
      = es.map (fun e =>
          (specCombined log exp sqrt parseTs now lam qv vectors q es e,
            e)) := by
  unfold hybridCombined
  dsimp only
  apply List.map_congr_left
  intro e _
  have hv : (match vectors e.id with
      | some v => if v.isEmpty then 0 else cosineG sqrt qv v
      | none => 0)
      = specVecContrib sqrt qv vectors e := by
    unfold specVecContrib
    cases hvec : vectors e.id with
    | none => rfl
    | some v =>
      cases v with
      | nil => simp [cosineG_nil_right]
      | cons x xs => rfl
  rw [hv]
  rfl

/-- Shape of the members of the hybrid `combined` list. -/
theorem hybridCombined_mem (log exp sqrt : K → K)
    (parseTs : String → Option K) (now lam : K) (qv : List K)
    (rest : List (List K)) (vectors : String → Option (List K))
    (q : String) (es : List Entry) {p : K × Entry}
    (hp : p ∈ hybridCombined log exp sqrt parseTs now lam
      (some (qv :: rest)) vectors q es) :
    p.1 = specCombined log exp sqrt parseTs now lam qv vectors q es p.2 := by
  rw [hybridCombined_eq] at hp
  obtain ⟨e, _, rfl⟩ := List.mem_map.mp hp
  rfl

/-- Claim C3: hybrid search scores every candidate as
`0.4 * keyword_contribution + 0.6 * vector_contribution`, the keyword
contribution being the normalized rank `1 - rank / total_returned` over
the keyword scorer's result on the full candidate set (no limit
truncation; 0 for excluded candidates) and the vector contribution the
raw cosine similarity (0 without a vector entry); the returned list is
sorted descending by combined score and contains only candidates whose
combined score is strictly positive. -/
theorem hybrid_score_formula (log exp sqrt : K → K)
    (parseTs : String → Option K) (now lam : K)
    (qvr : Option (List (List K))) (qv : List K) (rest : List (List K))
    (vectors : String → Option (List K)) (q : String) (es : List Entry)
    (limit : Nat) (hqv : qvr = some (qv :: rest)) :
    hybridCombined log exp sqrt parseTs now lam qvr vectors q es
      = es.map (fun e =>
          (specCombined log exp sqrt parseTs now lam qv vectors q es e, e))
    ∧ (keywordRanked log exp parseTs now lam q es).take es.length
        = keywordRanked log exp parseTs now lam q es
    ∧ (hybridSearch log exp sqrt parseTs now lam qvr vectors q es
        limit).Pairwise (fun e1 e2 =>
          specCombined log exp sqrt parseTs now lam qv vectors q es e2
            ≤ specCombined log exp sqrt parseTs now lam qv vectors q es e1)
    ∧ (hybridSearch log exp sqrt parseTs now lam qvr vectors q es
        limit).Forall (fun e =>
          0 < specCombined log exp sqrt parseTs now lam qv vectors q es
            e) := by
  subst hqv
  have hmem : ∀ p : K × Entry,
      p ∈ ((hybridCombined log exp sqrt parseTs now lam (some (qv :: rest))
          vectors q es).mergeSort
            (fun a b => decide (b.1 ≤ a.1))).take limit →
      p ∈ hybridCombined log exp sqrt parseTs now lam (some (qv :: rest))
        vectors q es := by
    intro p hp
    exact List.mem_mergeSort.mp (List.mem_of_mem_take hp)
  refine ⟨hybridCombined_eq log exp sqrt parseTs now lam qv rest vectors
      q es,
    List.take_of_length_le
      (keywordRanked_length_le log exp parseTs now lam q es), ?_, ?_⟩
  · unfold hybridSearch
    have hsorted := List.sorted_mergeSort
      (fun a b c h1 h2 => desc_trans a b c h1 h2)
      (fun a b => desc_total a b)
      (hybridCombined log exp sqrt parseTs now lam (some (qv :: rest))
        vectors q es)
    have hpw : List.Pairwise
        (fun a b : K × Entry => decide (b.1 ≤ a.1) = true)
        (List.filter (fun p => decide (0 < p.1))
          (List.take limit
            ((hybridCombined log exp sqrt parseTs now lam
              (some (qv :: rest)) vectors q es).mergeSort
                (fun a b => decide (b.1 ≤ a.1))))) :=
      hsorted.sublist
        ((List.filter_sublist _).trans (List.take_sublist _ _))
    rw [List.pairwise_map]
    refine hpw.imp_of_mem ?_
    intro p p' hp hp' h
    have h1 := hybridCombined_mem log exp sqrt parseTs now lam qv rest
      vectors q es (hmem p (List.mem_of_mem_filter hp))
    have h2 := hybridCombined_mem log exp sqrt parseTs now lam qv rest
      vectors q es (hmem p' (List.mem_of_mem_filter hp'))
    rw [← h1, ← h2]
    exact of_decide_eq_true h
  · unfold hybridSearch
    rw [List.forall_iff_forall_mem]
    intro e he
    obtain ⟨p, hp, rfl⟩ := List.mem_map.mp he
    have hpos := of_decide_eq_true (List.mem_filter.mp hp).2
    have h1 := hybridCombined_mem log exp sqrt parseTs now lam qv rest
      vectors q es (hmem p (List.mem_of_mem_filter hp))
    rwa [← h1]

/-- Concrete instance of C3 over `ℚ`: the full-candidate-set keyword run
used by the hybrid scorer is not truncated. -/
theorem hybrid_score_formula_app :
    (keywordRanked (K := ℚ) (fun _ => 1) (fun _ => 1) (fun _ => none) 0 0
        "a" [{ id := "i1", timestamp := "t", text := "a",
               tags := [], metadata := [], importance := 3 }]).take 1
      = keywordRanked (K := ℚ) (fun _ => 1) (fun _ => 1) (fun _ => none)
          0 0 "a" [{ id := "i1", timestamp := "t", text := "a",
                     tags := [], metadata := [], importance := 3 }] :=
  (hybrid_score_formula (K := ℚ) (fun _ => 1) (fun _ => 1) (fun _ => 1)
    (fun _ => none) 0 0 (some [[1]]) [1] [] (fun _ => none) "a"
    [{ id := "i1", timestamp := "t", text := "a",
       tags := [], metadata := [], importance := 3 }] 1 rfl).2.1

/-- The sorted tag set has no duplicates. -/
theorem pySortedSet_nodup (l : List String) : (pySortedSet l).Nodup :=
  ((List.perm_insertionSort _ _).nodup_iff).mpr (List.nodup_dedup l)

/-- The sorted tag set is sorted. -/
theorem pySortedSet_sorted (l : List String) :
    List.Sorted (fun a b : String => a ≤ b) (pySortedSet l) :=
  List.sorted_insertionSort _ _

/-- Claim C4 (amended): `add` stores the given tags verbatim (no
deduplication, no sorting); every record updated by the tag operation has
duplicate-free, sorted tags. -/
theorem tags_invariant :
    (∀ id ts text : String, ∀ tags : List String,
      ∀ md : List (String × String), ∀ imp : Int,
      (mkEntry id ts text tags md imp).tags = tags)
    ∧ (∀ (e : Entry) (add remove : List String),
        (tagApply e add remove).tags.Nodup
        ∧ List.Sorted (fun a b : String => a ≤ b)
            (tagApply e add remove).tags)
    ∧ (∀ (es : List Entry) (id : String) (add remove : List String),
        (tagEntry es id add remove).1.elim True
          (fun e' => e'.tags.Nodup
            ∧ List.Sorted (fun a b : String => a ≤ b) e'.tags)) := by
  refine ⟨fun _ _ _ _ _ _ => rfl,
    fun e add remove => ⟨pySortedSet_nodup _, pySortedSet_sorted _⟩, ?_⟩
  intro es id add remove
  induction es with
  | nil => trivial
  | cons e es ih =>
    cases h : (e.id == id) with
    | true =>
      simp only [tagEntry, h, if_true]
      exact ⟨pySortedSet_nodup _, pySortedSet_sorted _⟩
    | false =>
      simp only [tagEntry, h, Bool.false_eq_true, if_false]
      exact ih

/-- Claim C4 as stated is false: `Memory.add` stores the tag list
verbatim, so the record created from the duplicated, unsorted input
`["b", "a", "a"]` has duplicated, unsorted tags. -/
theorem tags_invariant_cex :
    ¬ ((mkEntry "i1" "t" "x" ["b", "a", "a"] [] 3).tags.Nodup
      ∧ List.Sorted (fun a b : String => a ≤ b)
          (mkEntry "i1" "t" "x" ["b", "a", "a"] [] 3).tags) := fun h =>
  absurd h.1 (by decide)

/-- Claim C5 (amended): for every limit ≥ 1, a query that tokenizes to
an empty token set makes keyword search return the most-recent `limit`
candidates in their given order. -/
theorem keyword_empty_query (log exp : K → K) (parseTs : String → Option K)
    (now lam : K) (q : String) (es : List Entry) (limit : Nat)
    (hq : tokenize q = []) (hl : 1 ≤ limit) :
    keywordSearch log exp parseTs now lam q es limit = lastN es limit := by
  unfold keywordSearch
  rw [if_pos (by rw [hq]; rfl)]
  unfold pyTail lastN
  rw [if_neg (by omega : ¬ limit = 0)]

/-- Concrete instance of C5 (amended) over `ℚ`. -/
theorem keyword_empty_query_app :
    keywordSearch (K := ℚ) (fun x => x) (fun x => x) (fun _ => none) 0 0
      "" [sample1, sample2] 1 = lastN [sample1, sample2] 1 :=
  keyword_empty_query (K := ℚ) (fun x => x) (fun x => x) (fun _ => none)
    0 0 "" [sample1, sample2] 1 rfl (by decide)

/-- Claim C5 as stated is false at `limit = 0`: the slice
`entries[-0:]` is the whole candidate list, not the most-recent 0
candidates. -/
theorem keyword_empty_query_cex :
    keywordSearch (K := ℚ) (fun x => x) (fun x => x) (fun _ => none) 0 0
      "" [sample1] 0 ≠ lastN [sample1] 0 := by decide

/-- Pairing a list with itself multiplies each element by itself. -/
theorem zipWith_mul_self (v : List ℝ) :
    List.zipWith (fun x y => x * y) v v = v.map (fun x => x * x) := by
  induction v with
  | nil => rfl
  | cons x xs ih => simp [ih]

/-- Pairing a list with its negation negates the squares. -/
theorem zipWith_mul_neg (v : List ℝ) :
    List.zipWith (fun x y => x * y) v (v.map fun x => -x)
      = v.map (fun x => -(x * x)) := by
  induction v with
  | nil => rfl
  | cons x xs ih => simp [ih, mul_neg]

/-- Sum of negated terms. -/
theorem sum_map_neg_sq (v : List ℝ) :
    (v.map fun x => -(x * x)).sum = -((v.map fun x => x * x).sum) := by
  induction v with
  | nil => simp
  | cons x xs ih =>
    rw [List.map_cons, List.sum_cons, ih, List.map_cons, List.sum_cons,
      neg_add]

/-- Negating a vector does not change its squares. -/
theorem sq_map_neg (v : List ℝ) :
    ((v.map fun x => -x).map fun x => x * x) = v.map fun x => x * x := by
  rw [List.map_map]
  apply List.map_congr_left
  intro a _
  simp [Function.comp, neg_mul_neg]

/-- A sum of squares is nonnegative. -/
theorem sum_sq_nonneg (v : List ℝ) : 0 ≤ (v.map fun x => x * x).sum := by
  induction v with
  | nil => simp
  | cons x xs ih =>
    rw [List.map_cons, List.sum_cons]
    exact add_nonneg (mul_self_nonneg x) ih

/-- Claim C6: `cosine_similarity` never divides by zero — it returns 0
whenever either input has zero norm — and for every vector of non-zero
norm it maps the vector against itself to 1 and against its negation to
-1. -/
theorem cosine_similarity_spec :
    (∀ a b : List ℝ, normL2 a = 0 ∨ normL2 b = 0 →
      cosine_similarity a b = 0)
    ∧ (∀ v : List ℝ, normL2 v ≠ 0 →
        cosine_similarity v v = 1
        ∧ cosine_similarity v (v.map fun x => -x) = -1) := by
  constructor
  · intro a b h
    unfold cosine_similarity cosineG
    dsimp only
    have h' : Real.sqrt ((a.map fun x => x * x).sum) = 0
        ∨ Real.sqrt ((b.map fun x => x * x).sum) = 0 := h
    rw [if_pos h']
  · intro v hv
    have hs : (v.map fun x => x * x).sum ≠ 0 := by
      intro h0
      apply hv
      unfold normL2
      rw [h0, Real.sqrt_zero]
    have hnn := sum_sq_nonneg v
    have hcond : ¬ (Real.sqrt ((v.map fun x => x * x).sum) = 0
        ∨ Real.sqrt ((v.map fun x => x * x).sum) = 0) := by
      rw [or_self]
      exact hv
    constructor
    · unfold cosine_similarity cosineG
      dsimp only
      rw [zipWith_mul_self, if_neg hcond, Real.mul_self_sqrt hnn]
      exact div_self hs
    · unfold cosine_similarity cosineG
      dsimp only
      rw [zipWith_mul_neg, sum_map_neg_sq, sq_map_neg, if_neg hcond,
        Real.mul_self_sqrt hnn, neg_div, div_self hs]

/-- Concrete instance of C6: zero-norm inputs give 0, and the unit
vector `[1]` gives 1 against itself and -1 against its negation. -/
theorem cosine_similarity_spec_app :
    cosine_similarity [] [] = 0
    ∧ cosine_similarity [1] [1] = 1
    ∧ cosine_similarity [1] ([1].map fun x => -x) = -1 :=
  ⟨cosine_similarity_spec.1 [] []
      (Or.inl (by simp [normL2])),
   (cosine_similarity_spec.2 [1]
      (by simp [normL2])).1,
   (cosine_similarity_spec.2 [1]
      (by simp [normL2])).2⟩

/-- Filtering out at least one matching element strictly shrinks the
list. -/
theorem length_filter_not_lt {α : Type} (p : α → Bool) (l : List α)
    (h : l.any p = true) :
    (l.filter fun a => !(p a)).length < l.length := by
  induction l with
  | nil => simp at h
  | cons x xs ih =>
    cases hx : p x with
    | true =>
      simp only [List.filter_cons, hx, Bool.not_true, Bool.false_eq_true,
        if_false, List.length_cons]
      exact Nat.lt_succ_of_le (List.length_filter_le _ _)
    | false =>
      have hxs : xs.any p = true := by
        simpa [List.any_cons, hx] using h
      simp only [List.filter_cons, hx, Bool.not_false, if_true,
        List.length_cons]
      exact Nat.succ_lt_succ (ih hxs)

/-- Filtering out the unique matching element shrinks the list by
exactly one. -/
theorem length_filter_not_count_one {α : Type} (p : α → Bool) (l : List α)
    (h : l.countP p = 1) :
    (l.filter fun a => !(p a)).length + 1 = l.length := by
  induction l with
  | nil => simp at h
  | cons x xs ih =>
    cases hx : p x with
    | true =>
      have hxs : xs.countP p = 0 := by
        have h' := h
        rw [List.countP_cons, if_pos hx] at h'
        omega
      have hall : xs.filter (fun a => !(p a)) = xs :=
        List.filter_eq_self.mpr (fun a ha => by
          have := List.countP_eq_zero.mp hxs a ha
          simp [this])
      simp only [List.filter_cons, hx, Bool.not_true, Bool.false_eq_true,
        if_false, hall, List.length_cons]
    | false =>
      have hxs : xs.countP p = 1 := by
        have h' := h
        rw [List.countP_cons, if_neg (by simp [hx])] at h'
        omega
      simp only [List.filter_cons, hx, Bool.not_false, if_true,
        List.length_cons]
      have := ih hxs
      omega

/-- Claim C7: deleting a present id returns true and removes every
record with that id from subsequent list/get results; with a unique id
the count decreases by exactly one; a second delete of the same id
returns false; deleting an unknown id returns false and leaves the
record log unchanged. -/
theorem delete_spec (es : List Entry) (id : String) :
    ((es.any fun e => e.id == id) = true → (deleteEntry es id).1 = true)
    ∧ ((deleteEntry es id).2.all fun e => !(e.id == id)) = true
    ∧ getEntry (deleteEntry es id).2 id = none
    ∧ (es.countP (fun e => e.id == id) = 1 →
        (deleteEntry es id).2.length + 1 = es.length)
    ∧ (deleteEntry (deleteEntry es id).2 id).1 = false
    ∧ ((es.all fun e => !(e.id == id)) = true →
        deleteEntry es id = (false, es)) := by
  by_cases hc : (es.filter fun e => !(e.id == id)).length = es.length
  · have heq : es.filter (fun e => !(e.id == id)) = es :=
      (List.filter_sublist es).eq_of_length hc
    have hD : deleteEntry es id = (false, es) := by
      unfold deleteEntry
      dsimp only
      rw [if_pos hc]
    have hall : (es.all fun e => !(e.id == id)) = true := by
      rw [List.all_eq_true]
      intro e he
      have he' : e ∈ es.filter (fun e => !(e.id == id)) := by
        rw [heq]; exact he
      exact (List.mem_filter.mp he').2
    refine ⟨fun hany => ?_, ?_, ?_, fun hcnt => ?_, ?_, fun _ => hD⟩
    · exact absurd hc (Nat.ne_of_lt (length_filter_not_lt _ _ hany))
    · rw [hD]
      exact hall
    · rw [hD]
      unfold getEntry
      rw [List.find?_eq_none]
      intro e he
      have := List.all_eq_true.mp hall e he
      simp only [Bool.not_eq_true'] at this
      simp [this]
    · have h5 : (es.filter fun e => !(e.id == id)).length + 1 = es.length :=
        length_filter_not_count_one (fun e => e.id == id) es hcnt
      omega
    · rw [hD]
      unfold deleteEntry
      dsimp only
      rw [if_pos hc]
  · have hD : deleteEntry es id
        = (true, es.filter fun e => !(e.id == id)) := by
      unfold deleteEntry
      dsimp only
      rw [if_neg hc]
    have hall : ((es.filter fun e => !(e.id == id)).all
        fun e => !(e.id == id)) = true := by
      rw [List.all_eq_true]
      intro e he
      exact (List.mem_filter.mp he).2
    refine ⟨fun _ => by rw [hD], by rw [hD]; exact hall, ?_,
      fun hcnt => ?_, ?_, fun hallin => ?_⟩
    · rw [hD]
      unfold getEntry
      rw [List.find?_eq_none]
      intro e he
      have := (List.mem_filter.mp he).2
      simp only [Bool.not_eq_true'] at this
      simp [this]
    · rw [hD]
      exact length_filter_not_count_one _ _ hcnt
    · rw [hD]
      unfold deleteEntry
      dsimp only
      have hidem : (es.filter fun e => !(e.id == id)).filter
          (fun e => !(e.id == id)) = es.filter fun e => !(e.id == id) :=
        List.filter_eq_self.mpr (fun a ha => (List.mem_filter.mp ha).2)
      rw [if_pos (by rw [hidem])]
    · have heq2 : es.filter (fun e => !(e.id == id)) = es :=
        List.filter_eq_self.mpr (fun a ha => List.all_eq_true.mp hallin a ha)
      exact absurd (by rw [heq2]) hc

/-- Concrete instance of C7: deleting `sample1` by id from a two-record
log. -/
theorem delete_spec_app :
    (deleteEntry [sample1, sample2] "i1").1 = true
    ∧ getEntry (deleteEntry [sample1, sample2] "i1").2 "i1" = none
    ∧ (deleteEntry [sample1, sample2] "i1").2.length + 1
        = ([sample1, sample2] : List Entry).length
    ∧ (deleteEntry (deleteEntry [sample1, sample2] "i1").2 "i1").1 = false
    ∧ deleteEntry [sample1, sample2] "zz" = (false, [sample1, sample2]) :=
  ⟨(delete_spec [sample1, sample2] "i1").1 (by decide),
   (delete_spec [sample1, sample2] "i1").2.2.1,
   (delete_spec [sample1, sample2] "i1").2.2.2.1 (by decide),
   (delete_spec [sample1, sample2] "i1").2.2.2.2.1,
   (delete_spec [sample1, sample2] "zz").2.2.2.2.2 (by decide)⟩

/-- Claim C8: `embed_batch` is all-or-nothing — a failed provider call
stores zero entries and returns 0; a successful call returning one
vector per item appends every item's vector in submission order and
returns the number of entries stored. -/
theorem embed_batch_spec {V : Type} (items : List (String × String))
    (result : Option (List V)) (store : List (String × V)) :
    (result = none → embed_batch items result store = (0, store))
    ∧ (∀ vecs : List V, result = some vecs →
        vecs.length = items.length →
        (embed_batch items result store).1 = items.length
        ∧ (embed_batch items result store).2
            = store ++ (items.zip vecs).map (fun p => (p.1.1, p.2))
        ∧ ((items.zip vecs).map (fun p => (p.1.1, p.2))).length
            = items.length
        ∧ ((items.zip vecs).map (fun p => (p.1.1, p.2))).map Prod.fst
            = items.map Prod.fst
        ∧ ((items.zip vecs).map (fun p => (p.1.1, p.2))).map Prod.snd
            = vecs) := by
  constructor
  · intro h
    subst h
    unfold embed_batch
    cases items <;> rfl
  · intro vecs h hlen
    subst h
    have hE : embed_batch items (some vecs) store
        = (items.length,
            store ++ (items.zip vecs).map fun p => (p.1.1, p.2)) := by
      cases items with
      | nil => simp [embed_batch]
      | cons i is => rfl
    have hfst : ((items.zip vecs).map (fun p => (p.1.1, p.2))).map Prod.fst
        = items.map Prod.fst := by
      rw [List.map_map]
      have h1 : (items.zip vecs).map Prod.fst = items :=
        List.map_fst_zip items vecs (le_of_eq hlen.symm)
      have h2 : ((items.zip vecs).map Prod.fst).map Prod.fst
          = items.map Prod.fst := by rw [h1]
      rw [List.map_map] at h2
      exact h2
    have hsnd : ((items.zip vecs).map (fun p => (p.1.1, p.2))).map Prod.snd
        = vecs := by
      rw [List.map_map]
      exact List.map_snd_zip items vecs (le_of_eq hlen)
    refine ⟨by rw [hE], by rw [hE], ?_, hfst, hsnd⟩
    rw [List.length_map, List.length_zip, hlen, Nat.min_self]

/-- Concrete instance of C8 with `ℕ`-valued vectors. -/
theorem embed_batch_spec_app :
    embed_batch [("m1", "note")] (none : Option (List ℕ)) [] = (0, [])
    ∧ (embed_batch [("m1", "note")] (some [7])
        ([] : List (String × ℕ))).1 = 1
    ∧ (embed_batch [("m1", "note")] (some [7])
        ([] : List (String × ℕ))).2
      = [] ++ ([("m1", "note")].zip [7]).map (fun p => (p.1.1, p.2)) :=
  ⟨(embed_batch_spec [("m1", "note")] none []).1 rfl,
   ((embed_batch_spec [("m1", "note")] (some [7])
      ([] : List (String × ℕ))).2 [7] rfl (by decide)).1,
   ((embed_batch_spec [("m1", "note")] (some [7])
      ([] : List (String × ℕ))).2 [7] rfl (by decide)).2.1⟩

/-- Claim C9: `add` followed by `get` of the fresh id yields a record
with identical text, tags and metadata and with importance clamped into
`[1, 5]`; inputs 10, -1 and 3 clamp to 5, 1 and 3. -/
theorem add_get_roundtrip (es : List Entry) (id ts text : String)
    (tags : List String) (md : List (String × String)) (imp : Int)
    (hfresh : (es.all fun e => !(e.id == id)) = true) :
    getEntry (addEntry es id ts text tags md imp).1 id
        = some (mkEntry id ts text tags md imp)
    ∧ (mkEntry id ts text tags md imp).text = text
    ∧ (mkEntry id ts text tags md imp).tags = tags
    ∧ (mkEntry id ts text tags md imp).metadata = md
    ∧ (mkEntry id ts text tags md imp).importance = max 1 (min 5 imp)
    ∧ 1 ≤ (mkEntry id ts text tags md imp).importance
    ∧ (mkEntry id ts text tags md imp).importance ≤ 5
    ∧ clampImportance 10 = 5 ∧ clampImportance (-1) = 1
    ∧ clampImportance 3 = 3 := by
  refine ⟨?_, rfl, rfl, rfl, rfl, le_max_left 1 _,
    max_le (by norm_num) (min_le_left 5 imp), by decide, by decide,
    by decide⟩
  unfold getEntry addEntry
  rw [List.find?_append]
  have h1 : es.find? (fun e => e.id == id) = none := by
    rw [List.find?_eq_none]
    intro e he
    have := List.all_eq_true.mp hfresh e he
    simp only [Bool.not_eq_true'] at this
    simp [this]
  rw [h1]
  simp [List.find?_cons, mkEntry]

/-- Concrete instance of C9. -/
theorem add_get_roundtrip_app :
    getEntry (addEntry [sample1] "n1" "t" "txt" ["a"] [("k", "v")] 10).1
        "n1" = some (mkEntry "n1" "t" "txt" ["a"] [("k", "v")] 10)
    ∧ (mkEntry "n1" "t" "txt" ["a"] [("k", "v")] 10).importance
        = max 1 (min 5 10)
    ∧ clampImportance 10 = 5 ∧ clampImportance (-1) = 1
    ∧ clampImportance 3 = 3 :=
  ⟨(add_get_roundtrip [sample1] "n1" "t" "txt" ["a"] [("k", "v")] 10
      (by decide)).1,
   (add_get_roundtrip [sample1] "n1" "t" "txt" ["a"] [("k", "v")] 10
      (by decide)).2.2.2.2.1,
   (add_get_roundtrip [sample1] "n1" "t" "txt" ["a"] [("k", "v")] 10
      (by decide)).2.2.2.2.2.2.2.1,
   (add_get_roundtrip [sample1] "n1" "t" "txt" ["a"] [("k", "v")] 10
      (by decide)).2.2.2.2.2.2.2.2.1,
   (add_get_roundtrip [sample1] "n1" "t" "txt" ["a"] [("k", "v")] 10
      (by decide)).2.2.2.2.2.2.2.2.2⟩

/-- Claim C10: `list` with `limit = 0` returns every record in
insertion order (the tail slice with n = 0 is the whole sequence), as
does keyword search on an empty-tokenizing query with `limit = 0`; for
`1 ≤ limit ≤ count`, `list` returns exactly the last `limit` records. -/
theorem limit_zero_returns_all (log exp : K → K)
    (parseTs : String → Option K) (now lam : K) (q : String)
    (es : List Entry) (limit : Nat) :
    listRecent es 0 = es
    ∧ (tokenize q = [] →
        keywordSearch log exp parseTs now lam q es 0 = es)
    ∧ (1 ≤ limit → limit ≤ es.length →
        listRecent es limit = es.drop (es.length - limit)
        ∧ (listRecent es limit).length = limit) := by
  refine ⟨rfl, fun hq => ?_, fun h1 hle => ⟨?_, ?_⟩⟩
  · unfold keywordSearch
    rw [if_pos (by rw [hq]; rfl)]
    rfl
  · unfold listRecent pyTail
    rw [if_neg (by omega : ¬ limit = 0)]
  · unfold listRecent pyTail
    rw [if_neg (by omega : ¬ limit = 0), List.length_drop]
    omega

/-- Concrete instance of C10 over `ℚ`. -/
theorem limit_zero_returns_all_app :
    listRecent [sample1, sample2] 0 = [sample1, sample2]
    ∧ keywordSearch (K := ℚ) (fun x => x) (fun x => x) (fun _ => none)
        0 0 "" [sample1, sample2] 0 = [sample1, sample2]
    ∧ (listRecent [sample1, sample2] 1
        = ([sample1, sample2] : List Entry).drop
            (([sample1, sample2] : List Entry).length - 1)
      ∧ (listRecent [sample1, sample2] 1).length = 1) :=
  ⟨(limit_zero_returns_all (K := ℚ) (fun x => x) (fun x => x)
      (fun _ => none) 0 0 "" [sample1, sample2] 1).1,
   (limit_zero_returns_all (K := ℚ) (fun x => x) (fun x => x)
      (fun _ => none) 0 0 "" [sample1, sample2] 1).2.1 rfl,
   (limit_zero_returns_all (K := ℚ) (fun x => x) (fun x => x)
      (fun _ => none) 0 0 "" [sample1, sample2] 1).2.2 (by decide)
      (by decide)⟩

end AgentMemory
